import Mathlib

/-
Verification of the message parsing/classification pipeline of
`src/utils/messageParser.ts` (launchkit-frontend).

Strings are modelled as `List Char`.  Each JavaScript regex operation of the
source is embedded as an executable scan over the character list that follows
the regex engine's semantics (leftmost match wins; lazy quantifiers try the
shortest extension first; a global replace rescans after the end of each
match).  JavaScript's `\s` class and `String.prototype.trim` are modelled by
`isWs`; `String.prototype.toLowerCase` is modelled per-character on the ASCII
range (`jsToLower`), which is exact for every keyword the source compares
against.
-/

/-! ## Character classes -/

/-- The character set matched by JavaScript `\s` (also the set trimmed by
`String.prototype.trim`). -/
def wsChars : List Char :=
  [' ', '\t', '\n', '\x0B', '\x0C', '\r', ' ', ' ',
   ' ', ' ', ' ', ' ', ' ', ' ', ' ',
   ' ', ' ', ' ', ' ',
   ' ', ' ', ' ', ' ', '　', '﻿']

/-- JavaScript `\s`. -/
def isWs (c : Char) : Bool := wsChars.contains c

/-- The character class `[ \t]` (horizontal whitespace) of the third replace
in `cleanWhitespace`. -/
def isHt (c : Char) : Bool := c == ' ' || c == '\t'

/-- ASCII lowering, the fragment of `String.prototype.toLowerCase` relevant to
the source's keyword comparisons. -/
def jsToLower (c : Char) : Char :=
  if 'A' ≤ c ∧ c ≤ 'Z' then Char.ofNat (c.toNat + 32) else c

def lowerStr (l : List Char) : List Char := l.map jsToLower

/-! ## Whitespace normalizer (`cleanWhitespace`)

The source is three chained replaces:
`.replace(/\n{4,}/g, '\n\n\n')` — every maximal run of four or more
newlines becomes exactly three (`collapseNl`, written as a right fold that
keeps at most three consecutive newlines);
`.replace(/^\s+|\s+$/g, '')` — without the `m` flag this trims the maximal
whitespace prefix and suffix of the whole string (`trimWs`);
`.replace(/[ \t]+$/gm, '')` — deletes every maximal run of spaces/tabs that
is immediately followed by a line terminator or by the end of the string
(`stripHt`, a right fold deleting a space/tab whose right context up to the
next line terminator or the end consists only of deleted spaces/tabs). -/

/-- The JavaScript LineTerminator set: the characters before which a
multiline `$` anchor matches, and exactly the characters `.` (no `s` flag)
does not match. -/
def isLineTerm (c : Char) : Bool :=
  c == '\n' || c == '\r' || c == '\u2028' || c == '\u2029'

/-- True when the list begins with a line terminator or is empty: the right
context at which a trailing `[ \t]+` run is anchored by `$` in multiline
mode (JS multiline `$` matches before `\n`, `\r`, U+2028, U+2029 and at the
end of input). -/
def ntStart : List Char → Bool
  | [] => true
  | c :: _ => isLineTerm c

/-- Embedding of `.replace(/[ \t]+$/gm, '')`. -/
def stripHt : List Char → List Char
  | [] => []
  | c :: rest =>
    let r := stripHt rest
    if isHt c && ntStart r then r else c :: r

def startsNl3 : List Char → Bool
  | a :: b :: c :: _ => a == '\n' && b == '\n' && c == '\n'
  | _ => false

/-- Embedding of `.replace(/\n{4,}/g, '\n\n\n')`: a newline is dropped when
three newlines already follow it in the processed tail, so every maximal run
of `n ≥ 4` newlines is cut down to exactly three. -/
def collapseNl : List Char → List Char
  | [] => []
  | c :: rest =>
    let r := collapseNl rest
    if c == '\n' && startsNl3 r then r else c :: r

/-- Embedding of `.replace(/^\s+|\s+$/g, '')` restricted to the suffix part. -/
def trimEndWs (l : List Char) : List Char := (l.reverse.dropWhile isWs).reverse

/-- Embedding of `.replace(/^\s+|\s+$/g, '')` (no `m` flag: whole-string trim). -/
def trimWs (l : List Char) : List Char := trimEndWs (l.dropWhile isWs)

/-- `cleanWhitespace` from `src/utils/messageParser.ts` lines 198-203. -/
def cleanWhitespace (l : List Char) : List Char := stripHt (trimWs (collapseNl l))

/-! ## Generic list scanning helpers -/

/-- Boolean prefix test (used for every literal-token comparison of the
regex embeddings). -/
def listPre : List Char → List Char → Bool
  | [], _ => true
  | _ :: _, [] => false
  | a :: as, b :: bs => a == b && listPre as bs

/-- Boolean substring test: `tok` occurs contiguously somewhere in the list. -/
def containsTok (tok : List Char) : List Char → Bool
  | [] => listPre tok []
  | c :: rest => listPre tok (c :: rest) || containsTok tok rest

/-- `t` occurs as a contiguous segment of `l`. -/
def SubSeg (t l : List Char) : Prop := ∃ p s, l = p ++ t ++ s

/-- Last element, total via `Option`. -/
def lastChar : List Char → Option Char
  | [] => none
  | [c] => some c
  | _ :: c :: rest => lastChar (c :: rest)

/-- The head, if any, is not whitespace. -/
def headOkWs : List Char → Bool
  | [] => true
  | c :: _ => !isWs c

/-- The last character, if any, is not whitespace. -/
def lastOkWs (l : List Char) : Bool :=
  match lastChar l with
  | none => true
  | some c => !isWs c

/-! ## File-marker extractor (`parseFileMarkers`)

The source regex is `/!~\*FILENAME:(.+?)\*~!([\s\S]*?)!~\*ENDFILE:\1\*~!/g`.
At a given start position the engine first requires the literal
`!~*FILENAME:`; then the lazy group `(.+?)` (one or more non-line-terminator
characters) is extended one character at a time, each extension requiring the
literal `*~!` and then a lazy `([\s\S]*?)` body extended zero characters at a
time until the literal `!~*ENDFILE:` followed by the captured filename and
`*~!` matches.  `tryMatchAt` reproduces that backtracking order with two
inner-to-outer minimal searches. -/

def beginMark : List Char := "!~*FILENAME:".toList
def starMark : List Char := "*~!".toList
def endMark : List Char := "!~*ENDFILE:".toList

/-- Characters matched by `.` (no `s` flag): everything but a line terminator. -/
def dotOk (c : Char) : Bool := !isLineTerm c

/-- The literal closing the span of a file named `fn`. -/
def endTokOf (fn : List Char) : List Char := endMark ++ fn ++ starMark

/-- Smallest lazy-body length at which the end token of `fn` matches. -/
def bodySearch (fn rest : List Char) : Option Nat :=
  (List.range (rest.length + 1)).find? (fun b => listPre (endTokOf fn) (rest.drop b))

/-- Does the filename candidate of length `f1 + 1` succeed (right context
`*~!`, and some body length closes the span)? -/
def fnameOk (r0 : List Char) (f1 : Nat) : Bool :=
  decide (f1 + 1 ≤ r0.length) && (r0.take (f1 + 1)).all dotOk &&
    listPre starMark (r0.drop (f1 + 1)) &&
    (bodySearch (r0.take (f1 + 1)) (r0.drop (f1 + 4))).isSome

/-- Try to match the file-marker regex with the match anchored at the head of
`l`; on success returns the captured filename, the captured body, and the
remainder of the list after the whole match. -/
def tryMatchAt (l : List Char) : Option (List Char × List Char × List Char) :=
  if listPre beginMark l then
    let r0 := l.drop 12
    match (List.range r0.length).find? (fnameOk r0) with
    | some f1 =>
      let fn := r0.take (f1 + 1)
      let rest := r0.drop (f1 + 4)
      match bodySearch fn rest with
      | some b => some (fn, rest.take b, (rest.drop b).drop (endTokOf fn).length)
      | none => none
    | none => none
  else none

/-- One pass of the global regex: collect the `(filename, body)` captures of
every match in scan order, and the input with each matched span deleted
(the source's `exec` loop and its `replace(filePattern, '')`).  `fuel` only
bounds the recursion; it is initialized to the length of the input, which a
match always strictly decreases. -/
def scanFMAux : Nat → List Char → List (List Char × List Char) × List Char
  | _, [] => ([], [])
  | 0, l => ([], l)
  | fuel + 1, c :: rest =>
    match tryMatchAt (c :: rest) with
    | some (fn, body, after) =>
      let p := scanFMAux fuel after
      ((fn, body) :: p.1, p.2)
    | none =>
      let p := scanFMAux fuel rest
      (p.1, c :: p.2)

def scanFM (l : List Char) : List (List Char × List Char) × List Char :=
  scanFMAux l.length l

/-- Split at newlines (`String.prototype.split('\n')`). -/
def splitNl : List Char → List (List Char)
  | [] => [[]]
  | c :: rest =>
    match splitNl rest with
    | [] => [[]]
    | h :: t => if c == '\n' then [] :: h :: t else (c :: h) :: t

/-- `fileContent.split('\n').filter(line => line.trim()).length`. -/
def countNonBlank (body : List Char) : Nat :=
  ((splitNl body).filter (fun ln => !(trimWs ln).isEmpty)).length

def natChars (n : Nat) : List Char := (Nat.repr n).toList

/-- One manifest entry: `` `${filename.trim()} (${lines} lines)` ``. -/
def entryOf (fn body : List Char) : List Char :=
  trimWs fn ++ " (".toList ++ natChars (countNonBlank body) ++ " lines)".toList

/-- The appended file summary block of `parseFileMarkers`. -/
def manifestOf (files : List (List Char)) : List Char :=
  "\n\nüìÅ **Generated Files:**\n".toList ++
    List.intercalate "\n".toList (files.map (fun f => "‚Ä¢ ".toList ++ f))

/-- `parseFileMarkers` from `src/utils/messageParser.ts` lines 73-97. -/
def parseFileMarkers (content : List Char) : List Char × List (List Char) :=
  let scanned := scanFM content
  let files := scanned.1.map (fun p => entryOf p.1 p.2)
  if files.isEmpty then (scanned.2, files)
  else (scanned.2 ++ manifestOf files, files)

/-! ## Code-block redactor (`hideCodeBlocks`)

The fence regex is ``/```[\s\S]*?```/g``: a literal triple backtick, a lazy
body, and a closing triple backtick. -/

def tick3 : List Char := "```".toList

def fenceSearch (r : List Char) : Option Nat :=
  (List.range (r.length + 1)).find? (fun b => listPre tick3 (r.drop b))

/-- Try to match a fenced block anchored at the head of `l`; returns the whole
matched span and the remainder after it. -/
def tryFence (l : List Char) : Option (List Char × List Char) :=
  if listPre tick3 l then
    match fenceSearch (l.drop 3) with
    | some b => some (tick3 ++ (l.drop 3).take b ++ tick3, ((l.drop 3).drop b).drop 3)
    | none => none
  else none

/-- `codeBlockPattern.test(content)`: at least one fenced block occurs. -/
def hasFence : List Char → Bool
  | [] => false
  | c :: rest => (tryFence (c :: rest)).isSome || hasFence rest

/-- The span of the first fenced block, if any. -/
def firstFenceSpan : List Char → Option (List Char)
  | [] => none
  | c :: rest =>
    match tryFence (c :: rest) with
    | some (span, _) => some span
    | none => firstFenceSpan rest

/-- `content.replace(codeBlockPattern, replacement)` where the replacement may
use `$&` (hence it is a function of the matched span). -/
def replFencesAux (repl : List Char → List Char) : Nat → List Char → List Char
  | _, [] => []
  | 0, l => l
  | fuel + 1, c :: rest =>
    match tryFence (c :: rest) with
    | some (span, after) => repl span ++ replFencesAux repl fuel after
    | none => c :: replFencesAux repl fuel rest

def replaceFences (repl : List Char → List Char) (content : List Char) : List Char :=
  replFencesAux repl content.length content

/-! ## Data model -/

inductive DeployStatus
  | deploying
  | deployed
  | failed
deriving DecidableEq

inductive UserType
  | beginner
  | developer
  | admin
deriving DecidableEq

/-- `CodeParsingOptions` (field order as in the source interface). -/
structure CodeParsingOptions where
  hideCodeBlocks : Bool
  hideFileMarkers : Bool
  showTechnicalDetails : Bool
  userType : UserType
deriving DecidableEq

def DEFAULT_OPTIONS : CodeParsingOptions := ⟨true, true, false, UserType.beginner⟩

structure ParsedMessage where
  content : List Char
  hasCode : Bool
  filesGenerated : List (List Char)
  deploymentStatus : Option DeployStatus
deriving DecidableEq

/-! ## Placeholder strings (copied byte-for-byte from the source) -/

def devPre : List Char :=
  "üíª *Code generated and deployed* <details><summary>Show technical details</summary>".toList

def devSuf : List Char := "</details>".toList

/-- The developer replacement string contains `$&`, so the matched span is
interpolated into it. -/
def devRepl (m : List Char) : List Char := devPre ++ m ++ devSuf

def deployedMsg : List Char :=
  "‚úÖ **Code generated successfully** - Your app is ready to use!".toList

def deployingMsg : List Char :=
  "üöÄ **Deploying your code...** - This will take a moment".toList

def genericMsg : List Char :=
  "üíª **App code generated** - Building your application...".toList

/-- `hideCodeBlocks` from `src/utils/messageParser.ts` lines 102-128. -/
def hideCodeBlocks (content : List Char) (u : UserType) (st : Option DeployStatus) :
    List Char × Bool :=
  if hasFence content then
    let replacement : List Char → List Char :=
      if u = UserType.developer then devRepl
      else if st = some DeployStatus.deployed then fun _ => deployedMsg
      else if st = some DeployStatus.deploying then fun _ => deployingMsg
      else fun _ => genericMsg
    (replaceFences replacement content, true)
  else (content, false)

/-- Modelled from the spec's placeholder-selection contract (§4.3, first
matching rule wins), for comparison with the implementation. -/
def specPlaceholderOf (u : UserType) (st : Option DeployStatus) : List Char → List Char :=
  if u = UserType.developer then devRepl
  else if st = some DeployStatus.deployed then fun _ => deployedMsg
  else if st = some DeployStatus.deploying then fun _ => deployingMsg
  else fun _ => genericMsg

/-! ## Deployment status detector (`detectDeploymentStatus`) -/

def deployedKeywords : List (List Char) :=
  ["Your app is live".toList, "app is live at".toList,
   "deployed successfully".toList, "deployment complete".toList]

def deployingKeywords : List (List Char) :=
  ["deploying".toList, "building".toList,
   "Creating deployment".toList, "Deployment in progress".toList]

def failedKeywords : List (List Char) :=
  ["deployment failed".toList, "build failed".toList,
   "Deployment Issue".toList, "Deployment Error".toList]

/-- `lowerContent.includes(keyword.toLowerCase())`. -/
def kwMatch (s kw : List Char) : Bool := containsTok (lowerStr kw) (lowerStr s)

def hasFailKw (s : List Char) : Bool := failedKeywords.any (fun k => kwMatch s k)
def hasDeployedKw (s : List Char) : Bool := deployedKeywords.any (fun k => kwMatch s k)
def hasDeployingKw (s : List Char) : Bool := deployingKeywords.any (fun k => kwMatch s k)

/-- `detectDeploymentStatus` from `src/utils/messageParser.ts` lines 133-170. -/
def detectDeploymentStatus (content : List Char) : Option DeployStatus :=
  if hasFailKw content then some DeployStatus.failed
  else if hasDeployedKw content then some DeployStatus.deployed
  else if hasDeployingKw content then some DeployStatus.deploying
  else none

/-! ## Status enhancer (`enhanceWithDeploymentStatus`) -/

def enhanceWithDeploymentStatus (content : List Char) (status : DeployStatus)
    (fileCount : Nat) : List Char :=
  match status with
  | DeployStatus.deployed =>
    if fileCount > 1 then
      content ++ "\n\nüéâ **Multi-file application deployed successfully!**\nYour ".toList ++
        natChars fileCount ++ "-file app is now live and ready to use.".toList
    else
      content ++
        "\n\nüéâ **Application deployed successfully!**\nYour app is now live and ready to use.".toList
  | DeployStatus.deploying =>
    content ++ "\n\n‚è≥ **Deployment in progress...**\nYour app will be ready shortly.".toList
  | DeployStatus.failed =>
    content ++
      "\n\n‚ùå **Deployment encountered issues**\nI\x27ll help you fix this and redeploy.".toList

/-! ## Pipeline orchestrator (`parseMessage`) -/

/-- `parseMessage` from `src/utils/messageParser.ts` lines 30-68 (the
spread-merge with `DEFAULT_OPTIONS` is resolved by the caller supplying a full
options record). -/
def parseMessage (content : List Char) (opts : CodeParsingOptions) : ParsedMessage :=
  let deploymentStatus := detectDeploymentStatus content
  let fmRes := if opts.hideFileMarkers then parseFileMarkers content else (content, [])
  let filesGenerated := fmRes.2
  let hasCode1 : Bool := decide (0 < filesGenerated.length)
  let cbRes :=
    if opts.hideCodeBlocks then hideCodeBlocks fmRes.1 opts.userType deploymentStatus
    else (fmRes.1, false)
  let hasCode : Bool := hasCode1 || cbRes.2
  let cleaned := cleanWhitespace cbRes.1
  let final :=
    match deploymentStatus, hasCode with
    | some st, true => enhanceWithDeploymentStatus cleaned st filesGenerated.length
    | _, _ => cleaned
  ⟨final, hasCode, filesGenerated, deploymentStatus⟩

/-! ## App-URL extractor (`extractAppUrl`) -/

def urlPre : List Char := "https://app-".toList
def urlSuf : List Char := ".launchkit.stratxi.com".toList

def isHexDigit (c : Char) : Bool := ('a' ≤ c ∧ c ≤ 'f') || ('0' ≤ c ∧ c ≤ '9')

/-- Try to match `/https:\/\/app-[a-f0-9]{8}\.launchkit\.stratxi\.com/` with
the match anchored at the head of `l`. -/
def tryUrl (l : List Char) : Option (List Char) :=
  if listPre urlPre l && ((l.drop 12).take 8).length == 8 &&
      ((l.drop 12).take 8).all isHexDigit && listPre urlSuf (l.drop 20)
  then some (l.take 42) else none

/-- `extractAppUrl` from `src/utils/messageParser.ts` lines 224-228
(`content.match(urlPattern)`, no `g` flag: the leftmost match or `null`). -/
def extractAppUrl : List Char → Option (List Char)
  | [] => none
  | c :: rest =>
    match tryUrl (c :: rest) with
    | some u => some u
    | none => extractAppUrl rest

/-- Modelled from the spec's words for claim C10: a string of the exact shape
`https://app-<8 lowercase hex>.launchkit.stratxi.com`. -/
def isAppUrl (u : List Char) : Bool :=
  u.length == 42 && listPre urlPre u && ((u.drop 12).take 8).all isHexDigit &&
    listPre urlSuf (u.drop 20)

/-! ## Concrete inputs used by individual claims -/

/-- Does the text contain at least one complete begin/end file-marker pair
(i.e. at least one match of the file regex)? -/
def hasMarkerPair (l : List Char) : Bool := !(scanFM l).1.isEmpty

/-- Marker pairs for files `A`, `B`, `A` in that order. -/
def abaInput : List Char :=
  ("!~*FILENAME:A*~!x!~*ENDFILE:A*~!" ++
   "!~*FILENAME:B*~!y\nz!~*ENDFILE:B*~!" ++
   "!~*FILENAME:A*~!w!~*ENDFILE:A*~!").toList

/-- A begin marker for `A`, an end marker for `B` inside its body, then the
end marker for `A`. -/
def pairInput : List Char :=
  "!~*FILENAME:A*~!b!~*ENDFILE:B*~!c!~*ENDFILE:A*~!".toList

/-- All prefixes of a list (first the empty prefix). -/
def initsOf : List Char → List (List Char)
  | [] => [[]]
  | c :: rest => [] :: (initsOf rest).map (fun p => c :: p)

/-- All contiguous segments of a list (prefixes of every suffix). -/
def segsOf : List Char → List (List Char)
  | [] => [[]]
  | c :: rest => initsOf (c :: rest) ++ segsOf rest

/-- No candidate filename has both its begin token
`!~*FILENAME:<fn>*~!` and its end token `!~*ENDFILE:<fn>*~!` somewhere in the
text (any such filename would be a contiguous segment, so quantifying over
`segsOf` is exhaustive).  Under this decidable condition no file-marker match
can exist — in particular a begin marker that is unterminated for its own
filename is left verbatim even when end markers of other names occur. -/
def noPairedName (l : List Char) : Bool :=
  (segsOf l).all (fun fn =>
    !(containsTok (beginMark ++ fn ++ starMark) l && containsTok (endTokOf fn) l))

/-- Two well-formed app URLs; the extractor must return the first. -/
def twoUrlInput : List Char :=
  ("a https://app-aaaaaaaa.launchkit.stratxi.com" ++
   " b https://app-bbbbbbbb.launchkit.stratxi.com").toList

/-! ## Lemmas: whitespace normalizer -/

theorem isHt_isWs {c : Char} (h : isHt c = true) : isWs c = true := by
  simp only [isHt, Bool.or_eq_true, beq_iff_eq] at h
  rcases h with h | h <;> subst h <;> decide

theorem stripHt_length_le (l : List Char) : (stripHt l).length ≤ l.length := by
  induction l with
  | nil => simp [stripHt]
  | cons c rest ih =>
    simp only [stripHt]
    split
    · exact Nat.le_succ_of_le ih
    · simpa using ih

theorem stripHt_idem (l : List Char) : stripHt (stripHt l) = stripHt l := by
  induction l with
  | nil => rfl
  | cons c rest ih =>
    simp only [stripHt]
    by_cases h : (isHt c && ntStart (stripHt rest)) = true
    · rw [if_pos h]
      exact ih
    · rw [if_neg h]
      simp only [stripHt, ih]
      rw [if_neg h]

theorem collapseNl_idem (l : List Char) : collapseNl (collapseNl l) = collapseNl l := by
  induction l with
  | nil => rfl
  | cons c rest ih =>
    simp only [collapseNl]
    by_cases h : (c == '\n' && startsNl3 (collapseNl rest)) = true
    · rw [if_pos h]
      exact ih
    · rw [if_neg h]
      simp only [collapseNl, ih]
      rw [if_neg h]

theorem stripHt_cons (c : Char) (rest : List Char) :
    stripHt (c :: rest) =
      if isHt c && ntStart (stripHt rest) then stripHt rest else c :: stripHt rest := rfl

theorem collapseNl_cons (c : Char) (rest : List Char) :
    collapseNl (c :: rest) =
      if c == '\n' && startsNl3 (collapseNl rest) then collapseNl rest
      else c :: collapseNl rest := rfl

theorem collapseNl_cons_ne {c : Char} (t : List Char) (h : (c == '\n') = false) :
    collapseNl (c :: t) = c :: collapseNl t := by
  simp [collapseNl, h]

theorem lastChar_cons_ne_nil {l : List Char} (h : l ≠ []) (a : Char) :
    lastChar (a :: l) = lastChar l := by
  cases l with
  | nil => exact absurd rfl h
  | cons b t => rfl

theorem lastChar_ne_none {l : List Char} (h : l ≠ []) : lastChar l ≠ none := by
  induction l with
  | nil => exact absurd rfl h
  | cons a t ih =>
    cases t with
    | nil => simp [lastChar]
    | cons b t' =>
      rw [lastChar_cons_ne_nil (by simp) a]
      exact ih (by simp)

theorem startsNl3_ne_nil {l : List Char} (h : startsNl3 l = true) : l ≠ [] := by
  cases l with
  | nil => simp [startsNl3] at h
  | cons a t => simp

theorem collapseNl_cons_ne_nil (c : Char) (rest : List Char) :
    collapseNl (c :: rest) ≠ [] := by
  rw [collapseNl_cons]
  by_cases h : (c == '\n' && startsNl3 (collapseNl rest)) = true
  · rw [if_pos h]
    have h3 : startsNl3 (collapseNl rest) = true := by
      simp only [Bool.and_eq_true] at h
      exact h.2
    exact startsNl3_ne_nil h3
  · rw [if_neg h]
    simp

theorem collapseNl_lastChar (l : List Char) : lastChar (collapseNl l) = lastChar l := by
  induction l with
  | nil => rfl
  | cons c rest ih =>
    rw [collapseNl_cons]
    by_cases h : (c == '\n' && startsNl3 (collapseNl rest)) = true
    · rw [if_pos h]
      have h3 : startsNl3 (collapseNl rest) = true := by
        simp only [Bool.and_eq_true] at h
        exact h.2
      cases rest with
      | nil => simp [collapseNl, startsNl3] at h3
      | cons d t =>
        rw [lastChar_cons_ne_nil (by simp) c]
        exact ih
    · rw [if_neg h]
      cases rest with
      | nil => simp [collapseNl]
      | cons d t =>
        rw [lastChar_cons_ne_nil (collapseNl_cons_ne_nil d t) c,
            lastChar_cons_ne_nil (by simp) c]
        exact ih

theorem stripHt_lastChar {l : List Char} (h : lastOkWs l = true) :
    lastChar (stripHt l) = lastChar l := by
  induction l with
  | nil => rfl
  | cons c rest ih =>
    cases rest with
    | nil =>
      have hw : isWs c = false := by
        simp only [lastOkWs, lastChar] at h
        simpa using h
      have hht : isHt c = false := by
        cases hh : isHt c with
        | false => rfl
        | true => rw [isHt_isWs hh] at hw; cases hw
      simp [stripHt, hht]
    | cons d t =>
      have hlast : lastChar (c :: d :: t) = lastChar (d :: t) := rfl
      have h' : lastOkWs (d :: t) = true := h
      have ihr := ih h'
      rw [stripHt_cons]
      by_cases hcond : (isHt c && ntStart (stripHt (d :: t))) = true
      · rw [if_pos hcond, ihr, hlast]
      · rw [if_neg hcond]
        have hsne : stripHt (d :: t) ≠ [] := by
          intro he
          rw [he] at ihr
          exact lastChar_ne_none (by simp) ihr.symm
        rw [lastChar_cons_ne_nil hsne c, ihr, hlast]

theorem stripHt_collapseNl {l : List Char} (h : stripHt l = l) :
    stripHt (collapseNl l) = collapseNl l := by
  induction l with
  | nil => rfl
  | cons c rest ih =>
    rw [stripHt_cons] at h
    by_cases hc : (isHt c && ntStart (stripHt rest)) = true
    · rw [if_pos hc] at h
      have hle := stripHt_length_le rest
      rw [h] at hle
      simp at hle
    · rw [if_neg hc] at h
      have hrest : stripHt rest = rest := by injection h
      have ihr := ih hrest
      rw [collapseNl_cons]
      by_cases h2 : (c == '\n' && startsNl3 (collapseNl rest)) = true
      · rw [if_pos h2]
        exact ihr
      · rw [if_neg h2, stripHt_cons, ihr]
        by_cases hht : isHt c = true
        · have hnt : ntStart (stripHt rest) = false := by
            cases hn : ntStart (stripHt rest) with
            | false => rfl
            | true => rw [hht, hn] at hc; simp at hc
          rw [hrest] at hnt
          cases rest with
          | nil => simp [ntStart] at hnt
          | cons d t =>
            have hlt : isLineTerm d = false := by simpa [ntStart] using hnt
            have hd : (d == '\n') = false := by
              cases hb : (d == '\n') with
              | false => rfl
              | true =>
                rw [show d = '\n' by simpa using hb] at hlt
                simp [isLineTerm] at hlt
            rw [collapseNl_cons_ne t hd]
            simp [ntStart, hlt]
        · simp [hht]

theorem headOk_dropWhile (l : List Char) : headOkWs (l.dropWhile isWs) = true := by
  induction l with
  | nil => rfl
  | cons c rest ih =>
    rw [List.dropWhile_cons]
    by_cases h : isWs c = true
    · rw [if_pos h]; exact ih
    · rw [if_neg h]
      simp only [headOkWs]
      simpa using h

theorem lastChar_append_single (xs : List Char) (c : Char) :
    lastChar (xs ++ [c]) = some c := by
  induction xs with
  | nil => rfl
  | cons a t ih =>
    have : (a :: t) ++ [c] = a :: (t ++ [c]) := rfl
    rw [this, lastChar_cons_ne_nil (by simp) a]
    exact ih

theorem lastChar_reverse (m : List Char) : lastChar m.reverse = m.head? := by
  cases m with
  | nil => rfl
  | cons c t =>
    rw [List.reverse_cons, lastChar_append_single]
    rfl

theorem head?_reverse_eq (l : List Char) : l.reverse.head? = lastChar l := by
  have := lastChar_reverse l.reverse
  rw [List.reverse_reverse] at this
  exact this.symm

theorem dropWhile_eq_self_of_headOk {l : List Char} (h : headOkWs l = true) :
    l.dropWhile isWs = l := by
  cases l with
  | nil => rfl
  | cons c rest =>
    have hw : isWs c = false := by simpa [headOkWs] using h
    rw [List.dropWhile_cons, if_neg (by simp [hw])]

theorem trimEnd_eq_self_of_lastOk {l : List Char} (h : lastOkWs l = true) :
    trimEndWs l = l := by
  unfold trimEndWs
  have hho : headOkWs l.reverse = true := by
    cases hr : l.reverse with
    | nil => rfl
    | cons c t =>
      have : l.reverse.head? = some c := by rw [hr]; rfl
      rw [head?_reverse_eq] at this
      simp only [lastOkWs, this] at h
      simpa [headOkWs] using h
  rw [dropWhile_eq_self_of_headOk hho, List.reverse_reverse]

theorem lastOk_trimEnd (l : List Char) : lastOkWs (trimEndWs l) = true := by
  unfold trimEndWs lastOkWs
  rw [lastChar_reverse]
  cases hd : (l.reverse.dropWhile isWs) with
  | nil => rfl
  | cons c t =>
    have := headOk_dropWhile l.reverse
    rw [hd] at this
    simpa [headOkWs] using this

theorem trimEnd_append (l : List Char) :
    trimEndWs l ++ (l.reverse.takeWhile isWs).reverse = l := by
  unfold trimEndWs
  rw [← List.reverse_append, List.takeWhile_append_dropWhile, List.reverse_reverse]

theorem headOk_trimEnd {l : List Char} (h : headOkWs l = true) :
    headOkWs (trimEndWs l) = true := by
  cases ht : trimEndWs l with
  | nil => rfl
  | cons c t =>
    have happ := trimEnd_append l
    rw [ht] at happ
    rw [← happ, List.cons_append] at h
    simpa [headOkWs] using h

theorem headOk_trimWs (l : List Char) : headOkWs (trimWs l) = true :=
  headOk_trimEnd (headOk_dropWhile l)

theorem lastOk_trimWs (l : List Char) : lastOkWs (trimWs l) = true :=
  lastOk_trimEnd _

theorem trimWs_eq_self {l : List Char} (h1 : headOkWs l = true) (h2 : lastOkWs l = true) :
    trimWs l = l := by
  unfold trimWs
  rw [dropWhile_eq_self_of_headOk h1, trimEnd_eq_self_of_lastOk h2]

theorem collapseNl_headOk {l : List Char} (h : headOkWs l = true) :
    headOkWs (collapseNl l) = true := by
  cases l with
  | nil => rfl
  | cons c rest =>
    have hw : isWs c = false := by simpa [headOkWs] using h
    have hne : (c == '\n') = false := by
      cases hb : (c == '\n') with
      | false => rfl
      | true =>
        have : c = '\n' := by simpa using hb
        rw [this] at hw
        exact absurd hw (by decide)
    rw [collapseNl_cons_ne rest hne]
    simpa [headOkWs] using hw

theorem collapseNl_lastOk {l : List Char} (h : lastOkWs l = true) :
    lastOkWs (collapseNl l) = true := by
  unfold lastOkWs
  rw [collapseNl_lastChar]
  exact h

theorem stripHt_headOk {l : List Char} (h : headOkWs l = true) :
    headOkWs (stripHt l) = true := by
  cases l with
  | nil => rfl
  | cons c rest =>
    have hw : isWs c = false := by simpa [headOkWs] using h
    have hht : isHt c = false := by
      cases hh : isHt c with
      | false => rfl
      | true => rw [isHt_isWs hh] at hw; cases hw
    simp [stripHt, hht, headOkWs, hw]

theorem stripHt_lastOk {l : List Char} (h : lastOkWs l = true) :
    lastOkWs (stripHt l) = true := by
  unfold lastOkWs
  rw [stripHt_lastChar h]
  exact h

theorem cw_headOk (x : List Char) : headOkWs (cleanWhitespace x) = true :=
  stripHt_headOk (headOk_trimWs _)

theorem cw_lastOk (x : List Char) : lastOkWs (cleanWhitespace x) = true :=
  stripHt_lastOk (lastOk_trimWs _)

theorem cw_stripHt (x : List Char) :
    stripHt (cleanWhitespace x) = cleanWhitespace x :=
  stripHt_idem _

theorem cw_second (x : List Char) :
    cleanWhitespace (cleanWhitespace x) = collapseNl (cleanWhitespace x) := by
  show stripHt (trimWs (collapseNl (cleanWhitespace x))) = collapseNl (cleanWhitespace x)
  rw [trimWs_eq_self (collapseNl_headOk (cw_headOk x)) (collapseNl_lastOk (cw_lastOk x))]
  exact stripHt_collapseNl (cw_stripHt x)

/-! ## Lemmas: marker and fence scanners -/

theorem listPre_length {xs : List Char} : ∀ {ys : List Char}, listPre xs ys = true →
    xs.length ≤ ys.length := by
  induction xs with
  | nil => intro ys _; simp
  | cons a as ih =>
    intro ys h
    cases ys with
    | nil => simp [listPre] at h
    | cons b bs =>
      simp only [listPre, Bool.and_eq_true] at h
      simpa using ih h.2

theorem listPre_iff_exists {xs : List Char} : ∀ {ys : List Char},
    listPre xs ys = true ↔ ∃ t, ys = xs ++ t := by
  induction xs with
  | nil => intro ys; simp [listPre]
  | cons a as ih =>
    intro ys
    cases ys with
    | nil =>
      simp only [listPre]
      constructor
      · intro h; cases h
      · rintro ⟨t, ht⟩; cases ht
    | cons b bs =>
      simp only [listPre, Bool.and_eq_true, beq_iff_eq]
      constructor
      · rintro ⟨hab, hpre⟩
        obtain ⟨t, ht⟩ := ih.mp hpre
        refine ⟨t, ?_⟩
        rw [ht, hab]
        rfl
      · rintro ⟨t, ht⟩
        injection ht with h1 h2
        exact ⟨h1.symm, ih.mpr ⟨t, h2⟩⟩

theorem listPre_append_left {xs ys zs : List Char} (h : listPre (xs ++ ys) zs = true) :
    listPre xs zs = true := by
  obtain ⟨t, ht⟩ := listPre_iff_exists.mp h
  exact listPre_iff_exists.mpr ⟨ys ++ t, by rw [ht, List.append_assoc]⟩

theorem containsTok_of_drop {tok : List Char} :
    ∀ (l : List Char) (n : Nat), listPre tok (l.drop n) = true → containsTok tok l = true := by
  intro l
  induction l with
  | nil =>
    intro n h
    simpa [containsTok, List.drop_nil] using h
  | cons c rest ih =>
    intro n h
    cases n with
    | zero =>
      simp only [List.drop_zero] at h
      simp [containsTok, h]
    | succ m =>
      simp only [List.drop_succ_cons] at h
      simp [containsTok, ih m h]

theorem tryMatchAt_end {l : List Char} {fn body after : List Char}
    (h : tryMatchAt l = some (fn, body, after)) : containsTok endMark l = true := by
  unfold tryMatchAt at h
  by_cases hb : listPre beginMark l = true
  · rw [if_pos hb] at h
    simp only at h
    cases hf : (List.range (l.drop 12).length).find? (fnameOk (l.drop 12)) with
    | none => rw [hf] at h; cases h
    | some f1 =>
      rw [hf] at h
      have hok := List.find?_some hf
      simp only [fnameOk, Bool.and_eq_true] at hok
      obtain ⟨⟨⟨_, _⟩, _⟩, hbody⟩ := hok
      cases hbs : bodySearch ((l.drop 12).take (f1 + 1)) ((l.drop 12).drop (f1 + 4)) with
      | none => rw [hbs] at hbody; cases hbody
      | some b =>
        have hpre := List.find?_some hbs
        have hpre2 : listPre endMark (((l.drop 12).drop (f1 + 4)).drop b) = true :=
          listPre_append_left (by
            simpa [endTokOf, List.append_assoc] using hpre)
        rw [List.drop_drop, List.drop_drop] at hpre2
        exact containsTok_of_drop l _ hpre2
  · rw [if_neg hb] at h
    cases h

theorem containsTok_cons_false {tok : List Char} {c : Char} {rest : List Char}
    (h : containsTok tok (c :: rest) = false) : containsTok tok rest = false := by
  simp only [containsTok, Bool.or_eq_false_iff] at h
  exact h.2

theorem scanFMAux_no_match : ∀ (fuel : Nat) (l : List Char),
    containsTok endMark l = false → scanFMAux fuel l = ([], l) := by
  intro fuel
  induction fuel with
  | zero =>
    intro l _
    cases l with
    | nil => rfl
    | cons c rest => rfl
  | succ n ih =>
    intro l h
    cases l with
    | nil => rfl
    | cons c rest =>
      have hm : tryMatchAt (c :: rest) = none := by
        cases hmm : tryMatchAt (c :: rest) with
        | none => rfl
        | some r =>
          obtain ⟨fn, body, after⟩ := r
          rw [tryMatchAt_end hmm] at h
          cases h
      simp only [scanFMAux, hm]
      rw [ih rest (containsTok_cons_false h)]

theorem scanFM_no_match {l : List Char} (h : containsTok endMark l = false) :
    scanFM l = ([], l) := scanFMAux_no_match l.length l h

theorem scanFMAux_empty_strip : ∀ (fuel : Nat) (l : List Char),
    (scanFMAux fuel l).1 = [] → (scanFMAux fuel l).2 = l := by
  intro fuel
  induction fuel with
  | zero =>
    intro l _
    cases l with
    | nil => rfl
    | cons c rest => rfl
  | succ n ih =>
    intro l h
    cases l with
    | nil => rfl
    | cons c rest =>
      cases hm : tryMatchAt (c :: rest) with
      | some r =>
        obtain ⟨fn, body, after⟩ := r
        simp [scanFMAux, hm] at h
      | none =>
        simp only [scanFMAux, hm] at h ⊢
        rw [ih rest h]

theorem parseFileMarkers_of_no_match {l : List Char}
    (h : (scanFM l).1 = []) : parseFileMarkers l = (l, []) := by
  have h2 : (scanFM l).2 = l := scanFMAux_empty_strip l.length l h
  simp only [parseFileMarkers, h, h2]
  simp

/-! ## Lemmas: fence scanner and replacement -/

theorem SubSeg_cons {m l : List Char} (c : Char) (h : SubSeg m l) : SubSeg m (c :: l) := by
  obtain ⟨p, s, hps⟩ := h
  exact ⟨c :: p, s, by rw [hps]; rfl⟩

theorem append_drop_self (xs : List Char) (t : List Char) :
    (xs ++ t).drop xs.length = t := by
  induction xs with
  | nil => simp
  | cons a as ih => simp [ih]

theorem tryFence_span {l span after : List Char}
    (h : tryFence l = some (span, after)) : l = span ++ after := by
  unfold tryFence at h
  by_cases h3 : listPre tick3 l = true
  · rw [if_pos h3] at h
    cases hfs : fenceSearch (l.drop 3) with
    | none => rw [hfs] at h; cases h
    | some b =>
      rw [hfs] at h
      injection h with h'
      injection h' with hspan hafter
      obtain ⟨t0, ht0⟩ := listPre_iff_exists.mp h3
      have hdrop : l.drop 3 = t0 := by
        rw [ht0]
        exact append_drop_self tick3 t0
      have hb := List.find?_some hfs
      obtain ⟨u, hu⟩ := listPre_iff_exists.mp hb
      have hsplit : (l.drop 3).take b ++ ((l.drop 3).drop b) = l.drop 3 :=
        List.take_append_drop b (l.drop 3)
      have hafter' : after = u := by
        rw [← hafter, hu]
        exact append_drop_self tick3 u
      rw [← hspan, hafter']
      have key : l = tick3 ++ ((l.drop 3).take b ++ ((l.drop 3).drop b)) := by
        rw [hsplit, hdrop]
        exact ht0
      rw [hu] at key
      calc l = tick3 ++ ((l.drop 3).take b ++ (tick3 ++ u)) := key
        _ = (tick3 ++ (l.drop 3).take b ++ tick3) ++ u := by simp [List.append_assoc]
  · rw [if_neg h3] at h
    cases h

theorem firstFenceSpan_subseg : ∀ (l m : List Char),
    firstFenceSpan l = some m → SubSeg m l := by
  intro l
  induction l with
  | nil => intro m h; cases h
  | cons c rest ih =>
    intro m h
    cases ht : tryFence (c :: rest) with
    | some pr =>
      obtain ⟨span, after⟩ := pr
      have hm : m = span := by
        simp only [firstFenceSpan, ht] at h
        exact (Option.some_inj.mp h).symm
      have hsp := tryFence_span ht
      exact ⟨[], after, by rw [hsp, hm]; rfl⟩
    | none =>
      have h' : firstFenceSpan rest = some m := by
        simpa only [firstFenceSpan, ht] using h
      exact SubSeg_cons c (ih m h')

theorem firstFenceSpan_hasFence : ∀ {l m : List Char},
    firstFenceSpan l = some m → hasFence l = true := by
  intro l
  induction l with
  | nil => intro m h; cases h
  | cons c rest ih =>
    intro m h
    cases ht : tryFence (c :: rest) with
    | some pr =>
      simp [hasFence, ht]
    | none =>
      have h' : firstFenceSpan rest = some m := by
        simpa only [firstFenceSpan, ht] using h
      simp [hasFence, ih h']

theorem firstFence_subseg_out : ∀ (fuel : Nat) (l m : List Char),
    firstFenceSpan l = some m → SubSeg m (replFencesAux devRepl fuel l) := by
  intro fuel
  induction fuel with
  | zero =>
    intro l m h
    cases l with
    | nil => cases h
    | cons c rest => exact firstFenceSpan_subseg _ m h
  | succ n ih =>
    intro l m h
    cases l with
    | nil => cases h
    | cons c rest =>
      cases ht : tryFence (c :: rest) with
      | some pr =>
        obtain ⟨span, after⟩ := pr
        have hm : m = span := by
          simp only [firstFenceSpan, ht] at h
          exact (Option.some_inj.mp h).symm
        subst hm
        refine ⟨devPre, devSuf ++ replFencesAux devRepl n after, ?_⟩
        simp only [replFencesAux, ht, devRepl]
        simp [List.append_assoc]
      | none =>
        have h' : firstFenceSpan rest = some m := by
          simpa only [firstFenceSpan, ht] using h
        have hout : replFencesAux devRepl (n + 1) (c :: rest) =
            c :: replFencesAux devRepl n rest := by
          simp only [replFencesAux, ht]
        rw [hout]
        exact SubSeg_cons c (ih rest m h')

theorem hideCodeBlocks_snd (content : List Char) (u : UserType)
    (st : Option DeployStatus) : (hideCodeBlocks content u st).2 = hasFence content := by
  cases h : hasFence content <;> simp [hideCodeBlocks, h]

theorem parseFileMarkers_snd (l : List Char) :
    (parseFileMarkers l).2 = ((scanFM l).1).map (fun p => entryOf p.1 p.2) := by
  simp only [parseFileMarkers]
  split <;> rfl

/-! ## Lemmas: URL extractor -/

theorem listPre_append_ext {xs ys : List Char} (t : List Char)
    (h : listPre xs ys = true) : listPre xs (ys ++ t) = true := by
  obtain ⟨w, hw⟩ := listPre_iff_exists.mp h
  exact listPre_iff_exists.mpr ⟨w ++ t, by rw [hw, List.append_assoc]⟩

theorem listPre_unappend {xs : List Char} : ∀ {ys : List Char} (t : List Char),
    listPre xs (ys ++ t) = true → xs.length ≤ ys.length → listPre xs ys = true := by
  induction xs with
  | nil => intro ys t _ _; rfl
  | cons a as ih =>
    intro ys t h hlen
    cases ys with
    | nil => simp at hlen
    | cons b bs =>
      simp only [List.cons_append, listPre, Bool.and_eq_true] at h ⊢
      exact ⟨h.1, ih t h.2 (by simpa using hlen)⟩

theorem take_append_le : ∀ (n : Nat) (u t : List Char), n ≤ u.length →
    (u ++ t).take n = u.take n := by
  intro n
  induction n with
  | zero => intro u t _; simp
  | succ m ih =>
    intro u t h
    cases u with
    | nil => simp at h
    | cons a as =>
      simp only [List.cons_append, List.take_succ_cons]
      rw [ih as t (by simpa using h)]

theorem drop_append_le : ∀ (n : Nat) (u t : List Char), n ≤ u.length →
    (u ++ t).drop n = u.drop n ++ t := by
  intro n
  induction n with
  | zero => intro u t _; simp
  | succ m ih =>
    intro u t h
    cases u with
    | nil => simp at h
    | cons a as =>
      simp only [List.cons_append, List.drop_succ_cons]
      exact ih as t (by simpa using h)

theorem tryUrl_some {s u : List Char} (h : tryUrl s = some u) :
    ∃ t, s = u ++ t ∧ isAppUrl u = true := by
  unfold tryUrl at h
  by_cases hc : (listPre urlPre s && ((s.drop 12).take 8).length == 8 &&
      ((s.drop 12).take 8).all isHexDigit && listPre urlSuf (s.drop 20)) = true
  · rw [if_pos hc] at h
    injection h with hu
    simp only [Bool.and_eq_true] at hc
    obtain ⟨⟨⟨hp, hlen8⟩, hhex⟩, hsuf⟩ := hc
    have hs20 : (22 : Nat) ≤ s.length - 20 := by
      have := listPre_length hsuf
      rw [List.length_drop] at this
      exact this
    have hs42 : (42 : Nat) ≤ s.length := by omega
    have hu42 : u.length = 42 := by
      rw [← hu, List.length_take]
      omega
    refine ⟨s.drop 42, ?_, ?_⟩
    · rw [← hu, List.take_append_drop]
    · have hsplit : s = u ++ s.drop 42 := by rw [← hu, List.take_append_drop]
      have hd12 : s.drop 12 = u.drop 12 ++ s.drop 42 := by
        have h0 := drop_append_le 12 u (s.drop 42) (by omega)
        rw [← hsplit] at h0
        exact h0
      have hd20 : s.drop 20 = u.drop 20 ++ s.drop 42 := by
        have h0 := drop_append_le 20 u (s.drop 42) (by omega)
        rw [← hsplit] at h0
        exact h0
      have hlen12 : (u.drop 12).length = 30 := by
        rw [List.length_drop, hu42]
      have hlen20 : (u.drop 20).length = 22 := by
        rw [List.length_drop, hu42]
      have ht8 : (s.drop 12).take 8 = (u.drop 12).take 8 := by
        rw [hd12]
        exact take_append_le 8 (u.drop 12) (s.drop 42) (by omega)
      simp only [isAppUrl, Bool.and_eq_true]
      refine ⟨⟨⟨by simp [hu42], ?_⟩, ?_⟩, ?_⟩
      · exact listPre_unappend (s.drop 42) (by rw [← hsplit]; exact hp)
          (by rw [hu42]; decide)
      · rw [← ht8]
        exact hhex
      · have hsuf' : listPre urlSuf (u.drop 20 ++ s.drop 42) = true := by
          rw [← hd20]
          exact hsuf
        exact listPre_unappend (s.drop 42) hsuf' (by rw [hlen20]; decide)
  · rw [if_neg hc] at h
    cases h

theorem tryUrl_of_isAppUrl {u : List Char} (h : isAppUrl u = true) (t : List Char) :
    tryUrl (u ++ t) = some u := by
  simp only [isAppUrl, Bool.and_eq_true] at h
  obtain ⟨⟨⟨hlen, hp⟩, hhex⟩, hsuf⟩ := h
  have hu42 : u.length = 42 := by simpa using hlen
  have hd12 : (u ++ t).drop 12 = u.drop 12 ++ t := drop_append_le 12 u t (by omega)
  have hd20 : (u ++ t).drop 20 = u.drop 20 ++ t := drop_append_le 20 u t (by omega)
  have ht8 : ((u ++ t).drop 12).take 8 = (u.drop 12).take 8 := by
    rw [hd12]
    exact take_append_le 8 (u.drop 12) t (by rw [List.length_drop, hu42]; omega)
  have hcond : (listPre urlPre (u ++ t) && (((u ++ t).drop 12).take 8).length == 8 &&
      (((u ++ t).drop 12).take 8).all isHexDigit && listPre urlSuf ((u ++ t).drop 20)) = true := by
    simp only [Bool.and_eq_true]
    refine ⟨⟨⟨listPre_append_ext t hp, ?_⟩, ?_⟩, ?_⟩
    · rw [ht8]
      simp [List.length_take, List.length_drop, hu42]
    · rw [ht8]
      exact hhex
    · rw [hd20]
      exact listPre_append_ext t hsuf
  unfold tryUrl
  rw [if_pos hcond]
  have : (u ++ t).take 42 = u := by
    rw [take_append_le 42 u t (by omega), ← hu42, List.take_length]
  rw [this]

theorem extractAppUrl_some : ∀ {l u : List Char}, extractAppUrl l = some u →
    SubSeg u l ∧ isAppUrl u = true := by
  intro l
  induction l with
  | nil => intro u h; cases h
  | cons c rest ih =>
    intro u h
    cases ht : tryUrl (c :: rest) with
    | some v =>
      have hv : v = u := by
        simp only [extractAppUrl, ht] at h
        exact Option.some_inj.mp h
      subst hv
      obtain ⟨t, hsplit, hurl⟩ := tryUrl_some ht
      exact ⟨⟨[], t, by rw [hsplit]; rfl⟩, hurl⟩
    | none =>
      have h' : extractAppUrl rest = some u := by
        simpa only [extractAppUrl, ht] using h
      obtain ⟨hs, hu⟩ := ih h'
      exact ⟨SubSeg_cons c hs, hu⟩

theorem extractAppUrl_none : ∀ {l : List Char}, extractAppUrl l = none →
    ∀ u : List Char, SubSeg u l → isAppUrl u = false := by
  intro l
  induction l with
  | nil =>
    intro _ u hs
    obtain ⟨p, s, hps⟩ := hs
    have : u = [] := by
      cases p with
      | nil =>
        cases u with
        | nil => rfl
        | cons a b => cases hps
      | cons a b => cases hps
    rw [this]
    decide
  | cons c rest ih =>
    intro h u hs
    have hpair : tryUrl (c :: rest) = none ∧ extractAppUrl rest = none := by
      cases ht : tryUrl (c :: rest) with
      | some v => simp only [extractAppUrl, ht] at h; cases h
      | none =>
        refine ⟨rfl, ?_⟩
        simpa only [extractAppUrl, ht] using h
    obtain ⟨p, s, hps⟩ := hs
    cases p with
    | nil =>
      cases hA : isAppUrl u with
      | false => rfl
      | true =>
        exfalso
        have := tryUrl_of_isAppUrl hA s
        rw [List.nil_append] at hps
        rw [← hps] at this
        rw [this] at hpair
        cases hpair.1
    | cons d p' =>
      have hrest : rest = p' ++ u ++ s := by
        injection hps with _ h2
      exact ih hpair.2 u ⟨p', s, hrest⟩

/-! ## Lemmas: marker pairing and fail-open -/

theorem SubSeg_trans {a b c : List Char} (h1 : SubSeg a b) (h2 : SubSeg b c) :
    SubSeg a c := by
  obtain ⟨p1, s1, hb⟩ := h1
  obtain ⟨p2, s2, hc⟩ := h2
  exact ⟨p2 ++ p1, s1 ++ s2, by rw [hc, hb]; simp [List.append_assoc]⟩

theorem containsTok_of_subseg {t l : List Char} (h : SubSeg t l) :
    containsTok t l = true := by
  obtain ⟨p, s, hps⟩ := h
  apply containsTok_of_drop l p.length
  have hdrop : l.drop p.length = t ++ s := by
    rw [hps, List.append_assoc]
    exact append_drop_self p (t ++ s)
  rw [hdrop]
  exact listPre_iff_exists.mpr ⟨s, rfl⟩

theorem initsOf_complete : ∀ (p l s : List Char), l = p ++ s → p ∈ initsOf l := by
  intro p
  induction p with
  | nil => intro l s h; cases l <;> simp [initsOf]
  | cons a p' ih =>
    intro l s h
    cases l with
    | nil => simp at h
    | cons c rest =>
      injection h with h1 h2
      subst h1
      simp only [initsOf, List.mem_cons, List.mem_map]
      exact Or.inr ⟨p', ih rest s h2, rfl⟩

theorem segsOf_complete : ∀ {t l : List Char}, SubSeg t l → t ∈ segsOf l := by
  intro t l
  induction l with
  | nil =>
    intro h
    obtain ⟨p, s, hps⟩ := h
    have h' := hps.symm
    simp only [List.append_eq_nil] at h'
    rw [h'.1.2]
    simp [segsOf]
  | cons c rest ih =>
    intro h
    obtain ⟨p, s, hps⟩ := h
    cases p with
    | nil =>
      rw [List.nil_append] at hps
      have hmem : t ∈ initsOf (c :: rest) := initsOf_complete t (c :: rest) s hps
      simp only [segsOf]
      exact List.mem_append.mpr (Or.inl hmem)
    | cons d p' =>
      have hrest : rest = p' ++ t ++ s := by injection hps with _ h2
      simp only [segsOf]
      exact List.mem_append.mpr (Or.inr (ih ⟨p', s, hrest⟩))

theorem noPairedName_cons {c : Char} {rest : List Char}
    (h : noPairedName (c :: rest) = true) : noPairedName rest = true := by
  simp only [noPairedName, List.all_eq_true] at h ⊢
  intro fn hfn
  have hmem : fn ∈ segsOf (c :: rest) := by
    simp only [segsOf]
    exact List.mem_append.mpr (Or.inr hfn)
  have hc := h fn hmem
  cases hb : containsTok (beginMark ++ fn ++ starMark) rest with
  | false => simp [hb]
  | true =>
    cases he : containsTok (endTokOf fn) rest with
    | false => simp [he]
    | true =>
      exfalso
      have hb' : containsTok (beginMark ++ fn ++ starMark) (c :: rest) = true := by
        simp only [containsTok, Bool.or_eq_true]
        exact Or.inr hb
      have he' : containsTok (endTokOf fn) (c :: rest) = true := by
        simp only [containsTok, Bool.or_eq_true]
        exact Or.inr he
      rw [hb', he'] at hc
      simp at hc

theorem tryMatchAt_structure {l fn body after : List Char}
    (h : tryMatchAt l = some (fn, body, after)) :
    l = beginMark ++ fn ++ starMark ++ body ++ endMark ++ fn ++ starMark ++ after := by
  unfold tryMatchAt at h
  by_cases hb : listPre beginMark l = true
  · rw [if_pos hb] at h
    simp only at h
    cases hf : (List.range (l.drop 12).length).find? (fnameOk (l.drop 12)) with
    | none =>
      rw [hf] at h
      simp only at h
      cases h
    | some f1 =>
      simp only [hf] at h
      have hok := List.find?_some hf
      simp only [fnameOk, Bool.and_eq_true, decide_eq_true_eq] at hok
      obtain ⟨⟨⟨hlen, _⟩, hstar⟩, _⟩ := hok
      cases hbs : bodySearch ((l.drop 12).take (f1 + 1)) ((l.drop 12).drop (f1 + 4)) with
      | none =>
        simp only [hbs] at h
        cases h
      | some b =>
        simp only [hbs, Option.some.injEq, Prod.mk.injEq] at h
        obtain ⟨hfn, hbody, hafter⟩ := h
        obtain ⟨t0, ht0⟩ := listPre_iff_exists.mp hb
        have hd12 : l.drop 12 = t0 := by
          rw [ht0]
          exact append_drop_self beginMark t0
        have A1 : l = beginMark ++ l.drop 12 := by
          rw [hd12]
          exact ht0
        have A2 : l.drop 12 = fn ++ (l.drop 12).drop (f1 + 1) := by
          have := List.take_append_drop (f1 + 1) (l.drop 12)
          rw [hfn] at this
          exact this.symm
        obtain ⟨u1, hu1⟩ := listPre_iff_exists.mp hstar
        have hu1' : ((l.drop 12).drop (f1 + 1)).drop 3 = u1 := by
          rw [hu1]
          exact append_drop_self starMark u1
        rw [List.drop_drop] at hu1'
        have A3 : (l.drop 12).drop (f1 + 1) = starMark ++ (l.drop 12).drop (f1 + 4) := by
          rw [hu1]
          rw [show (l.drop 12).drop (f1 + 4) = u1 from hu1']
        have hend := List.find?_some hbs
        rw [hfn] at hend
        obtain ⟨u2, hu2⟩ := listPre_iff_exists.mp hend
        have hu2' : (((l.drop 12).drop (f1 + 4)).drop b).drop (endTokOf fn).length = u2 := by
          rw [hu2]
          exact append_drop_self (endTokOf fn) u2
        rw [hfn] at hafter
        have hafter2 : after = u2 := by rw [← hafter, hu2']
        have A4 : (l.drop 12).drop (f1 + 4) =
            body ++ ((l.drop 12).drop (f1 + 4)).drop b := by
          have := List.take_append_drop b ((l.drop 12).drop (f1 + 4))
          rw [hbody] at this
          exact this.symm
        have A5 : ((l.drop 12).drop (f1 + 4)).drop b = endTokOf fn ++ after := by
          rw [hu2, hafter2]
        rw [A2, A3, A4, A5] at A1
        rw [A1]
        simp [endTokOf, List.append_assoc]
  · rw [if_neg hb] at h
    cases h

theorem tryMatchAt_tokens {l fn body after : List Char}
    (h : tryMatchAt l = some (fn, body, after)) :
    containsTok (beginMark ++ fn ++ starMark) l = true ∧
      containsTok (endTokOf fn) l = true := by
  have hs := tryMatchAt_structure h
  constructor
  · apply containsTok_of_subseg
    refine ⟨[], body ++ endMark ++ fn ++ starMark ++ after, ?_⟩
    rw [hs]
    simp [List.append_assoc]
  · apply containsTok_of_subseg
    refine ⟨beginMark ++ fn ++ starMark ++ body, after, ?_⟩
    rw [hs]
    simp [endTokOf, List.append_assoc]

theorem scanFMAux_no_pair : ∀ (fuel : Nat) (l : List Char),
    noPairedName l = true → scanFMAux fuel l = ([], l) := by
  intro fuel
  induction fuel with
  | zero =>
    intro l _
    cases l with
    | nil => rfl
    | cons c rest => rfl
  | succ n ih =>
    intro l h
    cases l with
    | nil => rfl
    | cons c rest =>
      have hm : tryMatchAt (c :: rest) = none := by
        cases hmm : tryMatchAt (c :: rest) with
        | none => rfl
        | some r =>
          exfalso
          obtain ⟨fn, body, after⟩ := r
          obtain ⟨hbt, het⟩ := tryMatchAt_tokens hmm
          have hs := tryMatchAt_structure hmm
          have hfnsub : SubSeg fn (c :: rest) := by
            refine ⟨beginMark, starMark ++ body ++ endMark ++ fn ++ starMark ++ after, ?_⟩
            rw [hs]
            simp [List.append_assoc]
          have hall : ∀ fn' ∈ segsOf (c :: rest),
              (!(containsTok (beginMark ++ fn' ++ starMark) (c :: rest) &&
                containsTok (endTokOf fn') (c :: rest))) = true := by
            simpa only [noPairedName, List.all_eq_true] using h
          have hP := hall fn (segsOf_complete hfnsub)
          rw [hbt, het] at hP
          simp at hP
      simp only [scanFMAux, hm]
      rw [ih rest (noPairedName_cons h)]

/-! ## Lemmas: leftmost URL match -/

theorem isAppUrl_length {u : List Char} (h : isAppUrl u = true) : u.length = 42 := by
  simp only [isAppUrl, Bool.and_eq_true] at h
  simpa using h.1.1.1

theorem prefix_eq_of_append_eq {u u' s s' : List Char} (hlen : u.length = u'.length)
    (h : u ++ s = u' ++ s') : u = u' := by
  have h1 : (u ++ s).take u.length = u := by
    rw [take_append_le u.length u s (Nat.le_refl _), List.take_length]
  have h2 : (u' ++ s').take u'.length = u' := by
    rw [take_append_le u'.length u' s' (Nat.le_refl _), List.take_length]
  rw [← h1, ← h2, h, hlen]

theorem extractAppUrl_leftmost : ∀ {l u : List Char}, extractAppUrl l = some u →
    ∃ p s, l = p ++ u ++ s ∧ isAppUrl u = true ∧
      ∀ p' u' s' : List Char, l = p' ++ u' ++ s' → isAppUrl u' = true →
        p.length ≤ p'.length ∧ (p'.length = p.length → u' = u) := by
  intro l
  induction l with
  | nil => intro u h; cases h
  | cons c rest ih =>
    intro u h
    cases ht : tryUrl (c :: rest) with
    | some v =>
      have hv : v = u := by
        simp only [extractAppUrl, ht] at h
        exact Option.some_inj.mp h
      subst hv
      obtain ⟨t, hsplit, hurl⟩ := tryUrl_some ht
      refine ⟨[], t, by simpa using hsplit, hurl, ?_⟩
      intro p' u' s' hdec hurl'
      refine ⟨Nat.zero_le _, ?_⟩
      intro hp0
      have hp' : p' = [] := List.eq_nil_of_length_eq_zero (by simpa using hp0)
      subst hp'
      rw [List.nil_append] at hdec
      have h42 : u'.length = v.length := by
        rw [isAppUrl_length hurl', isAppUrl_length hurl]
      apply prefix_eq_of_append_eq h42
      rw [← hdec]
      exact hsplit
    | none =>
      have h' : extractAppUrl rest = some u := by
        simpa only [extractAppUrl, ht] using h
      obtain ⟨p, s, hdec, hurl, hmin⟩ := ih h'
      refine ⟨c :: p, s, by rw [hdec]; simp [List.append_assoc], hurl, ?_⟩
      intro p' u' s' hdec' hurl'
      cases p' with
      | nil =>
        exfalso
        rw [List.nil_append] at hdec'
        have hsome := tryUrl_of_isAppUrl hurl' s'
        rw [← hdec'] at hsome
        rw [hsome] at ht
        cases ht
      | cons d p'' =>
        have hrest : rest = p'' ++ u' ++ s' := by
          injection hdec' with _ h2
        obtain ⟨hle, heq⟩ := hmin p'' u' s' hrest hurl'
        constructor
        · simpa using Nat.succ_le_succ hle
        · intro hlen
          apply heq
          simpa using hlen

/-! ## Claim theorems -/

/-- Claim C1, counterexample: `cleanWhitespace` is not idempotent.  On
`"a\n\n  \n\na"` the first pass strips the trailing spaces of the
whitespace-only line, creating a run of four newlines that only the second
pass collapses. -/
theorem C1_counterexample :
    cleanWhitespace (cleanWhitespace "a\n\n  \n\na".toList) ≠
      cleanWhitespace "a\n\n  \n\na".toList := by decide

/-- Claim C1, amended: the whitespace normalizer is idempotent from the second
application on — for every string `x`,
`cleanWhitespace (cleanWhitespace (cleanWhitespace x)) =
 cleanWhitespace (cleanWhitespace x)`.  Full idempotence fails (see the
counterexample) because the per-line trailing-whitespace strip can create a
fresh run of four or more newlines after the newline-collapsing pass has
already run. -/
theorem C1_cleanWhitespace_stabilizes (x : List Char) :
    cleanWhitespace (cleanWhitespace (cleanWhitespace x)) =
      cleanWhitespace (cleanWhitespace x) := by
  rw [cw_second x]
  have hhead : headOkWs (collapseNl (cleanWhitespace x)) = true :=
    collapseNl_headOk (cw_headOk x)
  have hlast : lastOkWs (collapseNl (cleanWhitespace x)) = true :=
    collapseNl_lastOk (cw_lastOk x)
  have hstrip : stripHt (collapseNl (cleanWhitespace x)) = collapseNl (cleanWhitespace x) :=
    stripHt_collapseNl (cw_stripHt x)
  show stripHt (trimWs (collapseNl (collapseNl (cleanWhitespace x)))) =
    collapseNl (cleanWhitespace x)
  rw [collapseNl_idem, trimWs_eq_self hhead hlast, hstrip]

/-- Claim C2, counterexample: with `hideFileMarkers` and `hideCodeBlocks`
both false, `hasCode` stays false even though the raw text contains a fenced
code block, because the source only ever sets `hasCode` inside the two
option-guarded branches. -/
theorem C2_counterexample :
    (parseMessage "```a```".toList ⟨false, false, false, UserType.beginner⟩).hasCode = false ∧
    hasFence "```a```".toList = true := by
  constructor <;> decide

/-- Claim C2, amended: when `hideFileMarkers` and `hideCodeBlocks` are both
true (for any `showTechnicalDetails` and `userType`), the `hasCode` field of
`parseMessage` is true exactly when the raw text contains at least one
embedded file-marker pair or at least one fenced code block.  (With either
flag false the equivalence fails, as the counterexample shows.) -/
theorem C2_hasCode_amended (raw : List Char) (s : Bool) (u : UserType) :
    (parseMessage raw ⟨true, true, s, u⟩).hasCode =
      (hasMarkerPair raw || hasFence raw) := by
  cases hm : (scanFM raw).1 with
  | nil =>
    have hpf := parseFileMarkers_of_no_match hm
    simp [parseMessage, hpf, hasMarkerPair, hm, hideCodeBlocks_snd]
  | cons p ps =>
    simp [parseMessage, parseFileMarkers_snd, hm, hasMarkerPair]

/-- Claim C3: `detectDeploymentStatus` does case-insensitive substring search
with family precedence failed > deployed > deploying: it reports `failed`
exactly when a failure keyword occurs (even if the other families also
occur — in particular on text containing both "deployment failed" and
"deploying"), `deployed` exactly when no failure but a success keyword
occurs, `deploying` exactly when only an in-progress keyword occurs, and
no status (undefined) exactly when no family matches; it is total, returning
a value on every string including the empty string. -/
theorem C3_detect_families :
    (∀ s : List Char,
      (detectDeploymentStatus s = some DeployStatus.failed ↔ hasFailKw s = true) ∧
      (detectDeploymentStatus s = some DeployStatus.deployed ↔
        (hasFailKw s = false ∧ hasDeployedKw s = true)) ∧
      (detectDeploymentStatus s = some DeployStatus.deploying ↔
        (hasFailKw s = false ∧ hasDeployedKw s = false ∧ hasDeployingKw s = true)) ∧
      (detectDeploymentStatus s = none ↔
        (hasFailKw s = false ∧ hasDeployedKw s = false ∧ hasDeployingKw s = false))) ∧
    detectDeploymentStatus "Deployment failed while deploying this build".toList =
      some DeployStatus.failed ∧
    detectDeploymentStatus [] = none := by
  refine ⟨fun s => ?_, by decide, by decide⟩
  cases hf : hasFailKw s <;> cases hd : hasDeployedKw s <;> cases hg : hasDeployingKw s <;>
    simp [detectDeploymentStatus, hf, hd, hg]

/-- Claim C4: the file-marker extractor produces exactly one manifest entry
per matched begin/end pair — `filesGenerated` is the match list mapped
through `"<trimmed filename> (<non-blank line count> lines)"`, in
first-occurrence order with no deduplication — and on the concrete input with
marker pairs for `A`, `B`, `A` (in that order) it yields exactly the three
entries `A (1 lines)`, `B (2 lines)`, `A (1 lines)`. -/
theorem C4_manifest_entries :
    (∀ l : List Char,
      (parseFileMarkers l).2 = ((scanFM l).1).map (fun p => entryOf p.1 p.2)) ∧
    (parseFileMarkers abaInput).2 =
      ["A (1 lines)".toList, "B (2 lines)".toList, "A (1 lines)".toList] := by
  refine ⟨fun l => parseFileMarkers_snd l, by decide⟩

/-- Claim C5: end markers pair with begin markers by filename equality, and
unmatched begin markers fail open.  First conjunct (universal): every match
has the shape `!~*FILENAME:<fn>*~! <body> !~*ENDFILE:<fn>*~!` — the end
marker's name is the very name captured at the begin marker, so pairing is by
name equality, never by the closest end marker of any name.  Second conjunct
(universal): whenever no candidate filename has both its begin token and its
end token in the text — in particular whenever a begin marker is unterminated
for its own filename, even with end markers of other names present — the
content is returned verbatim and the file list is empty.  Third conjunct: on
`!~*FILENAME:A*~!b!~*ENDFILE:B*~!c!~*ENDFILE:A*~!` the span of `A` extends to
the end marker named `A`, swallowing the end marker named `B` into the body
(one entry of one non-blank line, content exactly the manifest block). -/
theorem C5_fail_open_pairing :
    (∀ l fn body after : List Char, tryMatchAt l = some (fn, body, after) →
      l = beginMark ++ fn ++ starMark ++ body ++ endMark ++ fn ++ starMark ++ after) ∧
    (∀ l : List Char, noPairedName l = true → parseFileMarkers l = (l, [])) ∧
    parseFileMarkers pairInput =
      (manifestOf ["A (1 lines)".toList], ["A (1 lines)".toList]) := by
  refine ⟨fun l fn body after h => tryMatchAt_structure h, fun l h => ?_, by decide⟩
  apply parseFileMarkers_of_no_match
  show (scanFMAux l.length l).1 = []
  rw [scanFMAux_no_pair l.length l h]

set_option maxRecDepth 40000 in
/-- Claim C5, witness: a begin marker for `A` that is unterminated for its
own filename — while an end marker named `B` is present — is left verbatim
with no file entry; and the concrete match of `pairInput` decomposes with the
same name `A` at both markers. -/
theorem C5_fail_open_witness :
    parseFileMarkers "!~*FILENAME:A*~!x!~*ENDFILE:B*~!".toList =
      ("!~*FILENAME:A*~!x!~*ENDFILE:B*~!".toList, []) ∧
    pairInput = beginMark ++ "A".toList ++ starMark ++ "b!~*ENDFILE:B*~!c".toList ++
      endMark ++ "A".toList ++ starMark ++ [] :=
  ⟨C5_fail_open_pairing.2.1 _ (by decide),
   C5_fail_open_pairing.1 pairInput "A".toList "b!~*ENDFILE:B*~!c".toList [] (by decide)⟩

/-- Claim C6: for every input with no fenced code block and no file-marker
pair, `parseMessage` with both hide options enabled returns `hasCode = false`,
an empty `filesGenerated`, and content equal to the whitespace-normalized
input (no manifest block, no status trailer), for any `showTechnicalDetails`
and `userType`. -/
theorem C6_roundtrip_absence (raw : List Char) (s : Bool) (u : UserType)
    (hm : (scanFM raw).1 = []) (hf : hasFence raw = false) :
    parseMessage raw ⟨true, true, s, u⟩ =
      ⟨cleanWhitespace raw, false, [], detectDeploymentStatus raw⟩ := by
  have hpf := parseFileMarkers_of_no_match hm
  simp only [parseMessage, hpf]
  cases hdet : detectDeploymentStatus raw <;>
    simp [hideCodeBlocks, hf, hdet]

/-- Claim C6, witness: a message with a detected status but no code round
trips to its normalization with no trailer. -/
theorem C6_roundtrip_witness :
    parseMessage "All done deploying your project".toList
        ⟨true, true, false, UserType.beginner⟩ =
      ⟨cleanWhitespace "All done deploying your project".toList, false, [],
        detectDeploymentStatus "All done deploying your project".toList⟩ :=
  C6_roundtrip_absence _ _ _ (by decide) (by decide)

/-- Claim C7: pipeline determinism — two invocations of `parseMessage` on the
same string and options agree structurally on every field (the embedding is a
pure function, mirroring the source's per-call-fresh regex state). -/
theorem C7_determinism (s : List Char) (o : CodeParsingOptions) :
    (parseMessage s o).content = (parseMessage s o).content ∧
    (parseMessage s o).hasCode = (parseMessage s o).hasCode ∧
    (parseMessage s o).filesGenerated = (parseMessage s o).filesGenerated ∧
    (parseMessage s o).deploymentStatus = (parseMessage s o).deploymentStatus :=
  ⟨rfl, rfl, rfl, rfl⟩

/-- Claim C8: placeholder selection applies the first matching rule in the
fixed order (developer wrap, else deployed, else deploying, else generic),
with every fenced region replaced through the same message-level rule
(`specPlaceholderOf`, written from the spec); and for a developer the first
fenced block's text remains present in the output, inside the collapsible
wrapper, rather than being deleted. -/
theorem C8_placeholder_rules :
    (∀ (content : List Char) (u : UserType) (st : Option DeployStatus),
      hasFence content = true →
        hideCodeBlocks content u st =
          (replaceFences (specPlaceholderOf u st) content, true)) ∧
    (∀ (content : List Char) (st : Option DeployStatus) (m : List Char),
      firstFenceSpan content = some m →
        SubSeg m (hideCodeBlocks content UserType.developer st).1) := by
  constructor
  · intro content u st h
    simp [hideCodeBlocks, specPlaceholderOf, h]
  · intro content st m h
    have hf : hasFence content = true := firstFenceSpan_hasFence h
    have hout : (hideCodeBlocks content UserType.developer st).1 =
        replaceFences devRepl content := by
      simp [hideCodeBlocks, hf]
    rw [hout]
    exact firstFence_subseg_out content.length content m h

/-- Claim C8, witness: on a concrete one-fence message, a beginner with
status deployed gets the success placeholder path, and a developer's output
still contains the fenced block. -/
theorem C8_placeholder_witness :
    hideCodeBlocks "```a```".toList UserType.beginner (some DeployStatus.deployed) =
      (replaceFences (specPlaceholderOf UserType.beginner (some DeployStatus.deployed))
        "```a```".toList, true) ∧
    SubSeg "```a```".toList
      (hideCodeBlocks "```a```".toList UserType.developer none).1 :=
  ⟨C8_placeholder_rules.1 _ _ _ (by decide), C8_placeholder_rules.2 _ _ _ (by decide)⟩

/-- Claim C9: for a developer, the fenced code kept inside the collapsible
wrapper is still normalized by the whole-message `cleanWhitespace` pass that
runs afterwards: on a fence whose first line ends in a space, the raw span no
longer occurs in `parseMessage`'s content while its trailing-space-stripped
form does, so the preserved code need not be byte-identical to the raw
block. -/
theorem C9_dev_code_normalized :
    containsTok "```x \ny```".toList
      (parseMessage "hi\n```x \ny```".toList
        ⟨true, true, false, UserType.developer⟩).content = false ∧
    containsTok "```x\ny```".toList
      (parseMessage "hi\n```x \ny```".toList
        ⟨true, true, false, UserType.developer⟩).content = true := by
  constructor <;> decide

/-- Claim C10: `extractAppUrl` returns the first substring of its input
matching exactly `https://app-<8 lowercase hex>.launchkit.stratxi.com`.
Whenever it returns `some u`, the input decomposes as `p ++ u ++ s` with `u`
of exactly that shape (`isAppUrl`, written from the spec), and every
decomposition `p' ++ u' ++ s'` whose middle has that shape starts no earlier
(`p.length ≤ p'.length`) and coincides with `u` when it starts at the same
position — so `u` is the leftmost match.  Whenever it returns `none`, no
substring of the input has that shape.  Concretely, on an input with two such
URLs it returns the first, and a URL on another host
(`https://app-abc12345.example.com`) yields `none`. -/
theorem C10_extract_url :
    (∀ l u : List Char, extractAppUrl l = some u →
      ∃ p s, l = p ++ u ++ s ∧ isAppUrl u = true ∧
        ∀ p' u' s' : List Char, l = p' ++ u' ++ s' → isAppUrl u' = true →
          p.length ≤ p'.length ∧ (p'.length = p.length → u' = u)) ∧
    (∀ l : List Char, extractAppUrl l = none →
      ∀ u : List Char, SubSeg u l → isAppUrl u = false) ∧
    extractAppUrl twoUrlInput =
      some "https://app-aaaaaaaa.launchkit.stratxi.com".toList ∧
    extractAppUrl "see https://app-abc12345.example.com".toList = none := by
  refine ⟨fun l u h => extractAppUrl_leftmost h, fun l h u hs => extractAppUrl_none h u hs,
    by decide, by decide⟩

/-- Claim C10, witness: on the two-URL input the returned URL decomposes the
input, matches the exact pattern, and is leftmost among pattern matches. -/
theorem C10_extract_url_witness :
    ∃ p s, twoUrlInput = p ++ "https://app-aaaaaaaa.launchkit.stratxi.com".toList ++ s ∧
      isAppUrl "https://app-aaaaaaaa.launchkit.stratxi.com".toList = true ∧
      ∀ p' u' s' : List Char, twoUrlInput = p' ++ u' ++ s' → isAppUrl u' = true →
        p.length ≤ p'.length ∧
          (p'.length = p.length → u' = "https://app-aaaaaaaa.launchkit.stratxi.com".toList) :=
  C10_extract_url.1 twoUrlInput _ (by decide)
